import Mathlib

/-!
Verification of the just-download core (src/src/lib.rs).

The development shallowly embeds the Rust source: pure string
manipulation becomes functions on `List Char`, the stateful progress
bar and filesystem become explicitly threaded state, fallible
operations return `Except`.  External collaborators (the URL parsing
crate, the HTTP transport, the version matcher, the progress-bar sink)
are modelled from the specification and kept as parameters or small
state records.
-/

namespace JustDownload

/-- Splits a list at the first occurrence of `c`: returns the part
before and the part after that occurrence, or `none` when `c` is
absent. -/
def splitFirst (c : Char) : List Char → Option (List Char × List Char)
  | [] => none
  | x :: rest =>
    if x = c then some ([], rest)
    else (splitFirst c rest).map fun p => (x :: p.1, p.2)

/-- Splits a list on every occurrence of `c` (like `str::split`); the
result is never empty. -/
def splitAllChar (c : Char) : List Char → List (List Char)
  | [] => [[]]
  | x :: rest =>
    if x = c then [] :: splitAllChar c rest
    else
      match splitAllChar c rest with
      | [] => [[x]]
      | h :: t => (x :: h) :: t

/-- Joins a list of pieces with a separator between consecutive
pieces. -/
def joinWith (sep : List Char) : List (List Char) → List Char
  | [] => []
  | [p] => p
  | p :: rest => p ++ sep ++ joinWith sep rest

/-- `occursIn pat s` is true when `pat` occurs as a contiguous
sublist of `s`. -/
def occursIn (pat : List Char) : List Char → Bool
  | [] => pat.isPrefixOf []
  | c :: rest => pat.isPrefixOf (c :: rest) || occursIn pat rest

/-- Fuel-indexed worker for `replaceAll`; the fuel only serves to make
the recursion structural, any fuel at least the length of the input
gives the real answer (for a nonempty pattern). -/
def replaceAllGo (pat repl : List Char) : Nat → List Char → List Char
  | 0, s => s
  | _ + 1, [] => []
  | fuel + 1, c :: rest =>
    if pat.isPrefixOf (c :: rest) then
      repl ++ replaceAllGo pat repl fuel ((c :: rest).drop pat.length)
    else
      c :: replaceAllGo pat repl fuel rest

/-- Model of Rust `str::replace`: replaces every non-overlapping
occurrence of `pat` in `s` by `repl`, scanning left to right. -/
def replaceAll (pat repl s : List Char) : List Char :=
  replaceAllGo pat repl s.length s

/-- String-level `str::replace`: `strReplace s pat repl` is the Rust
expression `s.replace(pat, repl)`. -/
def strReplace (s pat repl : String) : String :=
  String.mk (replaceAll pat.data repl.data s.data)

/-- The literal placeholder token of the URL template, `"{version}"`
in the source. -/
def versionToken : String := "{version}"

/-- The opening-brace character, first character of the placeholder
token. -/
def lbrace : Char := Char.ofNat 123

/-- Semantic version, modelled as the three numeric components used by
the source (`semver::Version` of the manifest). -/
structure Version where
  major : Nat
  minor : Nat
  patch : Nat
deriving DecidableEq, Repr

/-- Canonical string form of a version, `major.minor.patch`, the model
of `Version::to_string`. -/
def Version.toString (v : Version) : String :=
  Nat.repr v.major ++ "." ++ Nat.repr v.minor ++ "." ++ Nat.repr v.patch

/-- URL assembly: the expression
`download_url.replace("{version}", version.to_string().as_str())`
from `assemble_download_url` in src/src/lib.rs. -/
def assembleUrl (template : String) (v : Version) : String :=
  strReplace template versionToken v.toString

/-- Modelled from the spec: the parsed URL record exposed by the
external URL crate (`reqwest::Url`), restricted to the pieces the
source consumes: the scheme, the host, the slash-separated path
segments (absent for a URL that is not a base, such as
`scheme://host` with no path, mirroring `Url::path_segments`
returning `None`), and the fragment (the substring after the first
`#`, absent when there is no `#`). -/
structure Url where
  scheme : List Char
  host : List Char
  pathSegments : Option (List (List Char))
  fragment : Option (List Char)
deriving DecidableEq, Repr

/-- Modelled from the spec: the fragment-free part of `Url::parse`.
The input must be `scheme:` followed by the rest, with a nonempty
alphabetic scheme; `//host/path` yields the host and the
slash-separated path segments, `//host` with no slash after the host
yields no path segments, and any other remainder is a non-base URL
with no path segments. -/
def parseBase (base : List Char) (frag : Option (List Char)) : Option Url :=
  match splitFirst ':' base with
  | none => none
  | some (scheme, rest) =>
    if scheme = [] ∨ ¬ scheme.all Char.isAlpha then none
    else
      match rest with
      | c1 :: c2 :: hostpath =>
        if c1 = '/' ∧ c2 = '/' then
          match splitFirst '/' hostpath with
          | none => some ⟨scheme, hostpath, none, frag⟩
          | some (host, path) => some ⟨scheme, host, some (splitAllChar '/' path), frag⟩
        else some ⟨scheme, [], none, frag⟩
      | _ => some ⟨scheme, [], none, frag⟩

/-- Modelled from the spec: `Url::parse` of the external URL crate.
The fragment is everything after the first `#`; the part before the
first `#` is parsed by `parseBase`. -/
def parseUrl (s : List Char) : Option Url :=
  match splitFirst '#' s with
  | none => parseBase s none
  | some (b, f) => parseBase b (some f)

/-- Error outcomes of the fallible operations in src/src/lib.rs: a
URL parse error propagated with `?` (`MalformedURL`), a transport
error propagated with `?`, and a panic raised by `.expect`,
`.unwrap_or_else(panic!)` or an equivalent abort, carrying its
message. -/
inductive DlError where
  | malformedUrl
  | transport (msg : String)
  | panicked (msg : String)
deriving DecidableEq, Repr

/-- The two derived local file names, `DownloadPath` of
src/src/lib.rs.  The Rust code converts both strings to `PathBuf`
verbatim with `Path::new(..).to_owned()`. -/
structure DownloadPath where
  compressed_path : String
  uncompressed_path : String
deriving DecidableEq, Repr

/-- `DownloadPath::from` (src/src/lib.rs lines 22-39): parse the URL
(`?` propagates a parse failure), take the last path segment as the
uncompressed name (`.expect` panics when absent), take the fragment
as the compressed name (`.expect` panics when absent).  Named
`fromUrl` because `from` is reserved in Lean. -/
def DownloadPath.fromUrl (downloadUrl : String) : Except DlError DownloadPath :=
  match parseUrl downloadUrl.data with
  | none => Except.error DlError.malformedUrl
  | some url =>
    match url.pathSegments.bind List.getLast? with
    | none => Except.error (DlError.panicked "Could not extract uncompressed filename")
    | some uncompressed =>
      match url.fragment with
      | none => Except.error (DlError.panicked "Could not extract compressed filename")
      | some compressed =>
        Except.ok ⟨String.mk compressed, String.mk uncompressed⟩

/-- Modelled from the spec: the progress-counter sink (the
`indicatif::ProgressBar` collaborator) with the three operations the
source uses: `new(total)`, `inc(n)` and `finish()`. -/
structure ProgressBar where
  total : Nat
  position : Nat
  finished : Bool
deriving DecidableEq, Repr

/-- `ProgressBar::new(total)`: accumulated position starts at zero,
not yet finished. -/
def ProgressBar.new (total : Nat) : ProgressBar :=
  ⟨total, 0, false⟩

/-- `ProgressBar::inc(n)`: advances the accumulated position by `n`. -/
def ProgressBar.inc (pb : ProgressBar) (n : Nat) : ProgressBar :=
  { pb with position := pb.position + n }

/-- `ProgressBar::finish()`: marks the bar finished. -/
def ProgressBar.finish (pb : ProgressBar) : ProgressBar :=
  { pb with finished := true }

/-- `DownloadProgress` of src/src/lib.rs: a wrapped byte source
together with the bound progress bar.  The wrapped source of type `σ`
is an arbitrary reader state; its `read` is supplied separately as a
state transformer. -/
structure DownloadProgress (σ : Type) where
  inner : σ
  progress_bar : ProgressBar

/-- `impl Read for DownloadProgress` (src/src/lib.rs lines 47-54):
`self.inner.read(buf).map(|n| { self.progress_bar.inc(n as u64); n })`.
A read delegates to the wrapped reader; on `Ok(n)` the bar is advanced
by exactly `n` and the same `n` is returned; on `Err` the error is
returned unchanged and the bar is not touched. -/
def DownloadProgress.read {σ E : Type} (innerRead : σ → σ × Except E Nat)
    (st : DownloadProgress σ) : DownloadProgress σ × Except E Nat :=
  match innerRead st.inner with
  | (s', Except.ok n) => (⟨s', st.progress_bar.inc n⟩, Except.ok n)
  | (s', Except.error e) => (⟨s', st.progress_bar⟩, Except.error e)

/-- `k` successive reads through the progress wrapper, collecting the
results in order. -/
def runReads {σ E : Type} (innerRead : σ → σ × Except E Nat) :
    Nat → DownloadProgress σ → DownloadProgress σ × List (Except E Nat)
  | 0, st => (st, [])
  | k + 1, st =>
    match DownloadProgress.read innerRead st with
    | (st', r) =>
      match runReads innerRead k st' with
      | (st'', rs) => (st'', r :: rs)

/-- `k` successive reads directly against the wrapped reader,
collecting the results in order. -/
def runInner {σ E : Type} (innerRead : σ → σ × Except E Nat) :
    Nat → σ → σ × List (Except E Nat)
  | 0, s => (s, [])
  | k + 1, s =>
    match innerRead s with
    | (s', r) =>
      match runInner innerRead k s' with
      | (s'', rs) => (s'', r :: rs)

/-- Sum of the byte counts of the successful reads in a result list. -/
def sumOks {E : Type} : List (Except E Nat) → Nat
  | [] => 0
  | Except.ok n :: rs => n + sumOks rs
  | Except.error _ :: rs => sumOks rs

/-- `Package` of the manifest (external `just_core` type): only the
name is consumed by this crate. -/
structure Package where
  name : String
deriving DecidableEq, Repr

/-- The `download` descriptor of the manifest: the URL template and
the optional pinned version. -/
structure DownloadDescriptor where
  url : String
  version : Option Version
deriving DecidableEq, Repr

/-- The manifest (external `just_core` type), restricted to the
fields the source consumes: the package, the download descriptor and
the optional list of known versions. -/
structure Manifest where
  package : Package
  download : DownloadDescriptor
  versions : Option (List Version)
deriving DecidableEq, Repr

/-- Modelled from the spec: an opaque version requirement
(`semver::VersionReq`), a black-box constraint only ever handed to
the version-matching collaborator. -/
structure VersionReq where
  satisfies : Version → Bool

/-- `assemble_download_url` (src/src/lib.rs lines 56-80), with the
external collaborator `just_versions::find_matching_version` taken as
a parameter (a black box, per the spec): try the known-versions list
through the matcher and substitute the winner into the template;
otherwise fall back to the pinned version of the download descriptor;
otherwise nothing. -/
def assemble_download_url
    (find_matching_version : List Version → Option VersionReq → Option Version)
    (manifest : Manifest) (req : Option VersionReq) :
    Option (String × Version) :=
  let downloadUrl := manifest.download.url
  match manifest.versions.bind (fun versions => find_matching_version versions req) with
  | some version => some (assembleUrl downloadUrl version, version)
  | none =>
    match manifest.download.version with
    | some version => some (assembleUrl downloadUrl version, version)
    | none => none

/-- Modelled from the spec: the HTTP response exposed by the
transport collaborator, restricted to what the source consumes: the
raw content-length header value when present, and the body as the
sequence of chunk sizes its successive reads deliver before
end-of-stream. -/
structure HttpResponse where
  contentLength : Option String
  body : List Nat
deriving DecidableEq, Repr

/-- Modelled from the spec: numeric parse of the content-length
header value (`HeaderValue::to_str().ok()` then
`str::parse::<u64>().ok()`): succeeds on a nonempty all-digit string
whose value fits in 64 bits. -/
def parseU64 (s : String) : Option Nat :=
  if s.data ≠ [] ∧ s.data.all Char.isDigit then
    let n := s.data.foldl (fun acc c => acc * 10 + (c.toNat - 48)) 0
    if n < 2 ^ 64 then some n else none
  else none

/-- `std::io::copy(&mut source, &mut dest)` where `source` is the
progress wrapper around the response body: the body yields the given
chunk sizes in order; each read advances the bar by the chunk size
exactly as `DownloadProgress.read` does, the loop stops at the first
empty read, every byte read is written to the destination file.
`copyProgress pb written chunks` returns the final bar, the total
`copy` reports, and the cumulative byte count written to the file
(starting from `written`). -/
def copyProgress (pb : ProgressBar) (written : Nat) :
    List Nat → ProgressBar × Nat × Nat
  | [] => (pb.inc 0, 0, written)
  | n :: rest =>
    if n = 0 then (pb.inc 0, 0, written)
    else
      let r := copyProgress (pb.inc n) (written + n) rest
      (r.1, n + r.2.1, r.2.2)

/-- `DownloadInfo` of src/src/lib.rs: the result record of a
successful download. -/
structure DownloadInfo where
  package : Package
  version : Version
  size : Nat
  compressed_path : String
  uncompressed_path : String
deriving DecidableEq, Repr

/-- `download` (src/src/lib.rs lines 82-142).  External collaborators
are parameters: the version matcher, the HTTP transport `http`
(mapping a URL to a response or a transport error), and the initial
filesystem `fs0` (an association list from path to file size).  The
returned pair is the filesystem after the call together with the
outcome.  Steps, in source order: resolve the URL and version
(`.expect` panics when none), issue the GET (`?` propagates), read
and parse the content-length header (`.expect` panics when absent or
non-numeric), build the progress bar with that total, derive the two
paths (`?` propagates), open the destination with `create_new` (the
model panics, naming the path, exactly when a file already exists
there), stream-copy the body through the progress wrapper into the
file, finish the bar, and build the `DownloadInfo`. -/
def download
    (find_matching_version : List Version → Option VersionReq → Option Version)
    (http : String → Except DlError HttpResponse)
    (fs0 : List (String × Nat))
    (manifest : Manifest) (req : Option VersionReq) :
    List (String × Nat) × Except DlError (DownloadInfo × ProgressBar) :=
  match assemble_download_url find_matching_version manifest req with
  | none => (fs0, Except.error (DlError.panicked "No Download-URL or valid Version given"))
  | some (downloadUrl, version) =>
    match http downloadUrl with
    | Except.error e => (fs0, Except.error e)
    | Except.ok response =>
      match response.contentLength.bind parseU64 with
      | none => (fs0, Except.error (DlError.panicked "No (numeric) Content-Length given"))
      | some byteSize =>
        match DownloadPath.fromUrl downloadUrl with
        | Except.error e => (fs0, Except.error e)
        | Except.ok downloadPath =>
          if (fs0.lookup downloadPath.compressed_path).isSome then
            (fs0, Except.error (DlError.panicked
              ("Could not open compressed path " ++ downloadPath.compressed_path)))
          else
            ((downloadPath.compressed_path,
                (copyProgress (ProgressBar.new byteSize) 0 response.body).2.2) :: fs0,
              Except.ok
                (⟨manifest.package, version,
                  (copyProgress (ProgressBar.new byteSize) 0 response.body).2.1,
                  downloadPath.compressed_path, downloadPath.uncompressed_path⟩,
                 (copyProgress (ProgressBar.new byteSize) 0 response.body).1.finish))

/-- A concrete wrapped reader used by the witnesses: the state is the
list of chunk sizes still to deliver; each read hands out the next
chunk and an empty state reads zero bytes. -/
def readChunks : List Nat → List Nat × Except String Nat
  | [] => ([], Except.ok 0)
  | n :: rest => (rest, Except.ok n)

/-- A concrete wrapped reader used by the witnesses: every read fails. -/
def readFailing : List Nat → List Nat × Except String Nat
  | l => (l, Except.error "boom")

/-- A concrete version matcher used by the witnesses: picks the first
known version. -/
def findHead : List Version → Option VersionReq → Option Version :=
  fun vs _ => vs.head?

/-- A concrete manifest used by the witnesses: a known-versions list
with one entry and no pinned version. -/
def manifestKnown : Manifest :=
  ⟨⟨"pkg"⟩, ⟨"https://x/{version}/a.tgz#a", none⟩, some [⟨1, 2, 0⟩]⟩

/-- A concrete manifest used by the witnesses: no known versions, a
pinned version in the download descriptor. -/
def manifestPinned : Manifest :=
  ⟨⟨"pkg"⟩, ⟨"https://x/{version}/a.tgz#a", some ⟨0, 9, 0⟩⟩, none⟩

/-- A concrete manifest used by the witnesses: neither known versions
nor a pinned version. -/
def manifestBare : Manifest :=
  ⟨⟨"pkg"⟩, ⟨"https://x/{version}/a.tgz#a", none⟩, none⟩

/-- A concrete transport used by the witnesses: every GET yields a
response with content-length header `"100"` and a two-chunk body of
seven bytes. -/
def httpFixed : String → Except DlError HttpResponse :=
  fun _ => Except.ok ⟨some "100", [3, 4]⟩

/-- A concrete transport used by the witnesses: every GET yields a
response with no content-length header. -/
def httpNoLen : String → Except DlError HttpResponse :=
  fun _ => Except.ok ⟨none, [3, 4]⟩

/-! ## Lemmas about the character-list utilities -/

theorem splitFirst_eq_none (c : Char) :
    ∀ a, c ∉ a → splitFirst c a = none := by
  intro a
  induction a with
  | nil => intro _; rfl
  | cons x rest ih =>
    intro h
    have hx : ¬ x = c := fun he => h (by simp [he])
    simp [splitFirst, hx, ih (fun hm => h (List.mem_cons_of_mem _ hm))]

theorem splitFirst_append_cons (c : Char) :
    ∀ a b, c ∉ a → splitFirst c (a ++ c :: b) = some (a, b) := by
  intro a
  induction a with
  | nil => intro b _; simp [splitFirst]
  | cons x rest ih =>
    intro b h
    have hx : ¬ x = c := fun he => h (by simp [he])
    simp [splitFirst, hx, ih b (fun hm => h (List.mem_cons_of_mem _ hm))]

theorem splitAllChar_eq_single (c : Char) :
    ∀ p, c ∉ p → splitAllChar c p = [p] := by
  intro p
  induction p with
  | nil => intro _; rfl
  | cons x rest ih =>
    intro h
    have hx : ¬ x = c := fun he => h (by simp [he])
    simp [splitAllChar, hx, ih (fun hm => h (List.mem_cons_of_mem _ hm))]

theorem splitAllChar_append_cons (c : Char) :
    ∀ p q, c ∉ p → splitAllChar c (p ++ c :: q) = p :: splitAllChar c q := by
  intro p
  induction p with
  | nil => intro q _; simp [splitAllChar]
  | cons x rest ih =>
    intro q h
    have hx : ¬ x = c := fun he => h (by simp [he])
    simp [splitAllChar, hx, ih q (fun hm => h (List.mem_cons_of_mem _ hm))]

theorem splitAllChar_joinWith (c : Char) :
    ∀ parts, parts ≠ [] → (∀ p ∈ parts, c ∉ p) →
      splitAllChar c (joinWith [c] parts) = parts := by
  intro parts
  induction parts with
  | nil => intro h _; exact absurd rfl h
  | cons p rest ih =>
    intro _ hb
    match rest with
    | [] => simpa [joinWith] using splitAllChar_eq_single c p (hb p (by simp))
    | q :: rest' =>
      have h1 : joinWith [c] (p :: q :: rest')
          = p ++ c :: joinWith [c] (q :: rest') := by
        simp [joinWith]
      rw [h1, splitAllChar_append_cons c p _ (hb p (by simp)),
        ih (by simp) (fun x hx => hb x (List.mem_cons_of_mem _ hx))]

theorem mem_of_mem_joinWith (sep : List Char) (x : Char) :
    ∀ parts, x ∈ joinWith sep parts → x ∈ sep ∨ ∃ p ∈ parts, x ∈ p := by
  intro parts
  induction parts with
  | nil => intro h; simp [joinWith] at h
  | cons p rest ih =>
    intro h
    match rest with
    | [] =>
      right
      exact ⟨p, by simp, by simpa [joinWith] using h⟩
    | q :: rest' =>
      simp only [joinWith, List.append_assoc, List.mem_append] at h
      rcases h with h | h | h
      · right; exact ⟨p, by simp, h⟩
      · left; exact h
      · rcases ih h with h' | ⟨r, hr, hx⟩
        · left; exact h'
        · right; exact ⟨r, List.mem_cons_of_mem _ hr, hx⟩

/-! ## Lemmas about the replace model -/

theorem replaceAllGo_nil (pat repl : List Char) (f : Nat) :
    replaceAllGo pat repl f [] = [] := by
  cases f <;> rfl

theorem isPrefixOf_append_self (l s : List Char) :
    l.isPrefixOf (l ++ s) = true := by
  induction l with
  | nil => cases s <;> rfl
  | cons a l ih => simp [List.isPrefixOf, ih]

theorem replaceAllGo_cons_pos (pat repl : List Char) (f : Nat) (c : Char)
    (rest : List Char) (h : pat.isPrefixOf (c :: rest) = true) :
    replaceAllGo pat repl (f + 1) (c :: rest)
      = repl ++ replaceAllGo pat repl f ((c :: rest).drop pat.length) := by
  simp [replaceAllGo, h]

theorem replaceAllGo_cons_neg (pat repl : List Char) (f : Nat) (c : Char)
    (rest : List Char) (h : pat.isPrefixOf (c :: rest) = false) :
    replaceAllGo pat repl (f + 1) (c :: rest)
      = c :: replaceAllGo pat repl f rest := by
  simp [replaceAllGo, h]

theorem replaceAllGo_fuel (pat repl : List Char) (hpat : pat ≠ []) :
    ∀ f₁ f₂ s, s.length ≤ f₁ → s.length ≤ f₂ →
      replaceAllGo pat repl f₁ s = replaceAllGo pat repl f₂ s := by
  intro f₁
  induction f₁ with
  | zero =>
    intro f₂ s h1 _
    have hs : s = [] := List.eq_nil_of_length_eq_zero (Nat.le_zero.mp h1)
    subst hs
    rw [replaceAllGo_nil, replaceAllGo_nil]
  | succ f ih =>
    intro f₂ s h1 h2
    match s with
    | [] => rw [replaceAllGo_nil, replaceAllGo_nil]
    | c :: rest =>
      match f₂ with
      | 0 => simp at h2
      | f₂' + 1 =>
        have hplen : 1 ≤ pat.length := List.length_pos.mpr hpat
        simp only [List.length_cons, Nat.succ_le_succ_iff] at h1 h2
        by_cases hp : pat.isPrefixOf (c :: rest) = true
        · simp only [replaceAllGo, hp, if_true]
          congr 1
          apply ih
          · simp only [List.length_drop, List.length_cons]; omega
          · simp only [List.length_drop, List.length_cons]; omega
        · simp only [replaceAllGo, hp, if_false, Bool.false_eq_true]
          congr 1
          exact ih f₂' rest h1 h2

theorem replaceAll_eq_go (pat repl s : List Char) (f : Nat) (hpat : pat ≠ [])
    (hf : s.length ≤ f) : replaceAll pat repl s = replaceAllGo pat repl f s :=
  replaceAllGo_fuel pat repl hpat s.length f s (Nat.le_refl _) hf

theorem replaceAll_skip (pat repl : List Char) (lb : Char)
    (hhead : pat.head? = some lb) :
    ∀ a s, lb ∉ a →
      replaceAll pat repl (a ++ s) = a ++ replaceAll pat repl s := by
  intro a
  induction a with
  | nil => intro s _; simp
  | cons x a' ih =>
    intro s hmem
    have hpre : pat.isPrefixOf (x :: (a' ++ s)) = false := by
      cases pat with
      | nil => simp at hhead
      | cons p0 pt =>
        have hp0 : p0 = lb := by simpa using hhead
        have hx : (p0 == x) = false := by
          simp only [beq_eq_false_iff_ne, ne_eq, hp0]
          intro he
          exact hmem (by simp [he.symm])
        simp [List.isPrefixOf, hx]
    have hstep : replaceAll pat repl (x :: (a' ++ s))
        = x :: replaceAll pat repl (a' ++ s) :=
      replaceAllGo_cons_neg pat repl (a' ++ s).length x (a' ++ s) hpre
    rw [List.cons_append, hstep,
      ih s (fun hm => hmem (List.mem_cons_of_mem _ hm)), List.cons_append]

theorem replaceAll_headmatch (pat repl s : List Char) (hpat : pat ≠ []) :
    replaceAll pat repl (pat ++ s) = repl ++ replaceAll pat repl s := by
  cases pat with
  | nil => exact absurd rfl hpat
  | cons p0 pt =>
    have hpre : ((p0 :: pt).isPrefixOf (p0 :: (pt ++ s))) = true := by
      have h := isPrefixOf_append_self (p0 :: pt) s
      simp only [List.cons_append] at h
      exact h
    have hstep : replaceAll (p0 :: pt) repl (p0 :: (pt ++ s))
        = repl ++ replaceAllGo (p0 :: pt) repl (pt ++ s).length
            ((p0 :: (pt ++ s)).drop (p0 :: pt).length) :=
      replaceAllGo_cons_pos (p0 :: pt) repl (pt ++ s).length p0 (pt ++ s) hpre
    have hdrop : (p0 :: (pt ++ s)).drop (p0 :: pt).length = s := by
      have h := List.drop_left pt s
      simp only [List.length_cons, List.drop_succ_cons]
      exact h
    rw [List.cons_append, hstep, hdrop]
    exact congrArg (repl ++ ·)
      (replaceAll_eq_go (p0 :: pt) repl s (pt ++ s).length (by simp) (by simp)).symm

theorem occursIn_cons_false {pat : List Char} {c : Char} {rest : List Char}
    (h : occursIn pat (c :: rest) = false) :
    pat.isPrefixOf (c :: rest) = false ∧ occursIn pat rest = false := by
  simpa [occursIn, Bool.or_eq_false_iff] using h

theorem replaceAllGo_of_not_occurs (pat repl : List Char) :
    ∀ s f, s.length ≤ f → occursIn pat s = false →
      replaceAllGo pat repl f s = s := by
  intro s
  induction s with
  | nil => intro f _ _; exact replaceAllGo_nil pat repl f
  | cons c rest ih =>
    intro f hf hocc
    match f with
    | 0 => simp at hf
    | f' + 1 =>
      obtain ⟨h1, h2⟩ := occursIn_cons_false hocc
      simp only [replaceAllGo, h1, Bool.false_eq_true, if_false]
      exact congrArg (c :: ·)
        (ih f' (by simp only [List.length_cons, Nat.succ_le_succ_iff] at hf; exact hf) h2)

theorem replaceAll_of_not_occurs (pat repl s : List Char)
    (hocc : occursIn pat s = false) : replaceAll pat repl s = s :=
  replaceAllGo_of_not_occurs pat repl s s.length (Nat.le_refl _) hocc

theorem replaceAll_joinWith (pat repl : List Char) (lb : Char)
    (hhead : pat.head? = some lb) :
    ∀ parts, parts ≠ [] → (∀ p ∈ parts, lb ∉ p) →
      replaceAll pat repl (joinWith pat parts) = joinWith repl parts := by
  intro parts
  induction parts with
  | nil => intro h _; exact absurd rfl h
  | cons p rest ih =>
    intro _ hb
    have hpat : pat ≠ [] := by
      intro h; rw [h] at hhead; simp at hhead
    match rest with
    | [] =>
      have h0 := replaceAll_skip pat repl lb hhead p [] (hb p (by simp))
      rw [List.append_nil] at h0
      have h1 : replaceAll pat repl ([] : List Char) = [] := rfl
      rw [h1, List.append_nil] at h0
      simpa [joinWith] using h0
    | q :: rest' =>
      have h1 : joinWith pat (p :: q :: rest')
          = p ++ (pat ++ joinWith pat (q :: rest')) := by
        simp [joinWith]
      rw [h1, replaceAll_skip pat repl lb hhead p _ (hb p (by simp)),
        replaceAll_headmatch pat repl _ hpat,
        ih (by simp) (fun x hx => hb x (List.mem_cons_of_mem _ hx))]
      simp [joinWith]

/-! ## Lemmas about the progress wrapper and the copy loop -/

theorem sumOks_map_ok {E : Type} :
    ∀ ns : List Nat, sumOks (E := E) (ns.map Except.ok) = ns.sum := by
  intro ns
  induction ns with
  | nil => rfl
  | cons n t ih => simp [sumOks, ih]

theorem runReads_refines {σ E : Type} (innerRead : σ → σ × Except E Nat) :
    ∀ (k : Nat) (s : σ) (pb : ProgressBar),
      runReads innerRead k ⟨s, pb⟩
        = (⟨(runInner innerRead k s).1,
            ⟨pb.total, pb.position + sumOks (runInner innerRead k s).2, pb.finished⟩⟩,
           (runInner innerRead k s).2) := by
  intro k
  induction k with
  | zero => intro s pb; simp [runReads, runInner, sumOks]
  | succ k ih =>
    intro s pb
    cases hr : innerRead s with
    | mk s' r =>
      cases r with
      | ok n =>
        have hread : DownloadProgress.read innerRead ⟨s, pb⟩
            = (⟨s', ⟨pb.total, pb.position + n, pb.finished⟩⟩, Except.ok n) := by
          simp [DownloadProgress.read, hr, ProgressBar.inc]
        have ihs := ih s' ⟨pb.total, pb.position + n, pb.finished⟩
        simp only [runReads, hread, ihs, runInner, hr, sumOks]
        simp [Nat.add_assoc]
      | error e =>
        have hread : DownloadProgress.read innerRead ⟨s, pb⟩
            = (⟨s', pb⟩, Except.error e) := by
          simp [DownloadProgress.read, hr]
        simp only [runReads, hread, runInner, hr, ih s' pb, sumOks]

theorem copyProgress_written :
    ∀ (chunks : List Nat) (pb : ProgressBar) (w : Nat),
      (copyProgress pb w chunks).2.2 = w + (copyProgress pb w chunks).2.1 := by
  intro chunks
  induction chunks with
  | nil => intro pb w; simp [copyProgress]
  | cons n rest ih =>
    intro pb w
    by_cases h : n = 0
    · simp [copyProgress, h]
    · simp only [copyProgress, h, if_false]
      have := ih (pb.inc n) (w + n)
      simp only [this]
      omega

theorem copyProgress_total :
    ∀ (chunks : List Nat) (pb : ProgressBar) (w : Nat),
      (copyProgress pb w chunks).1.total = pb.total := by
  intro chunks
  induction chunks with
  | nil => intro pb w; simp [copyProgress, ProgressBar.inc]
  | cons n rest ih =>
    intro pb w
    by_cases h : n = 0
    · simp [copyProgress, h, ProgressBar.inc]
    · simp only [copyProgress, h, if_false]
      rw [ih (pb.inc n) (w + n)]
      simp [ProgressBar.inc]

theorem copyProgress_ignores_total :
    ∀ (chunks : List Nat) (t₁ t₂ p : Nat) (f : Bool) (w : Nat),
      (copyProgress ⟨t₁, p, f⟩ w chunks).1.position
          = (copyProgress ⟨t₂, p, f⟩ w chunks).1.position
      ∧ (copyProgress ⟨t₁, p, f⟩ w chunks).1.finished
          = (copyProgress ⟨t₂, p, f⟩ w chunks).1.finished
      ∧ (copyProgress ⟨t₁, p, f⟩ w chunks).2
          = (copyProgress ⟨t₂, p, f⟩ w chunks).2 := by
  intro chunks
  induction chunks with
  | nil => intro t₁ t₂ p f w; simp [copyProgress, ProgressBar.inc]
  | cons n rest ih =>
    intro t₁ t₂ p f w
    by_cases h : n = 0
    · simp [copyProgress, h, ProgressBar.inc]
    · simp only [copyProgress, h, if_false, ProgressBar.inc]
      obtain ⟨h1, h2, h3⟩ := ih t₁ t₂ (p + n) f (w + n)
      refine ⟨h1, h2, ?_⟩
      simp only [Prod.mk.injEq]
      exact ⟨congrArg (n + ·) (congrArg Prod.fst h3), congrArg Prod.snd h3⟩

/-- Inversion of a successful `download`: recovers every intermediate
value the orchestration produced. -/
theorem download_ok_inversion
    (find : List Version → Option VersionReq → Option Version)
    (http : String → Except DlError HttpResponse)
    (fs0 : List (String × Nat)) (m : Manifest) (req : Option VersionReq)
    (fs' : List (String × Nat)) (info : DownloadInfo) (pbf : ProgressBar)
    (hrun : download find http fs0 m req = (fs', Except.ok (info, pbf))) :
    ∃ u v resp bs dp,
      assemble_download_url find m req = some (u, v)
      ∧ http u = Except.ok resp
      ∧ resp.contentLength.bind parseU64 = some bs
      ∧ DownloadPath.fromUrl u = Except.ok dp
      ∧ (fs0.lookup dp.compressed_path).isSome = false
      ∧ info = ⟨m.package, v, (copyProgress (ProgressBar.new bs) 0 resp.body).2.1,
          dp.compressed_path, dp.uncompressed_path⟩
      ∧ pbf = (copyProgress (ProgressBar.new bs) 0 resp.body).1.finish
      ∧ fs' = (dp.compressed_path,
          (copyProgress (ProgressBar.new bs) 0 resp.body).2.2) :: fs0 := by
  unfold download at hrun
  split at hrun
  next hassem => simp at hrun
  next u v hassem =>
    split at hrun
    next e hhttp => simp at hrun
    next resp hhttp =>
      split at hrun
      next hlen => simp at hrun
      next bs hlen =>
        split at hrun
        next e hpath => simp at hrun
        next dp hpath =>
          split at hrun
          next hex => simp at hrun
          next hex =>
            simp only [Prod.mk.injEq, Except.ok.injEq] at hrun
            obtain ⟨hfs, hinfo, hpb⟩ := hrun
            refine ⟨u, v, resp, bs, dp, hassem, hhttp, hlen, hpath, ?_,
              hinfo.symm, hpb.symm, hfs.symm⟩
            exact Bool.eq_false_iff.mpr hex

theorem not_mem_of_all_alpha (scheme : List Char)
    (hsa : scheme.all Char.isAlpha = true) (c : Char)
    (hc : c.isAlpha = false) : c ∉ scheme := by
  intro hm
  have h := List.all_eq_true.mp hsa c hm
  rw [hc] at h
  exact Bool.false_ne_true h

/-- Evaluation of the modelled URL parser on a well-formed base URL
`scheme://host/path`: yields the scheme, the host and the
slash-separated path segments. -/
theorem parseBase_eval (scheme host path : List Char)
    (frag : Option (List Char))
    (hs : scheme ≠ []) (hsa : scheme.all Char.isAlpha = true)
    (hsc : ':' ∉ scheme) (hh1 : '/' ∉ host) :
    parseBase (scheme ++ ':' :: '/' :: '/' :: (host ++ '/' :: path)) frag
      = some ⟨scheme, host, some (splitAllChar '/' path), frag⟩ := by
  unfold parseBase
  rw [splitFirst_append_cons ':' scheme _ hsc]
  simp [hs, hsa, splitFirst_append_cons '/' host path hh1]

/-- Reduction of `DownloadPath.fromUrl` once the parse result is
known. -/
theorem fromUrl_of_parse (s : String) (url : Url)
    (hp : parseUrl s.data = some url) :
    DownloadPath.fromUrl s
      = match url.pathSegments.bind List.getLast? with
        | none => Except.error (DlError.panicked "Could not extract uncompressed filename")
        | some uncompressed =>
          match url.fragment with
          | none => Except.error (DlError.panicked "Could not extract compressed filename")
          | some compressed =>
            Except.ok ⟨String.mk compressed, String.mk uncompressed⟩ := by
  unfold DownloadPath.fromUrl
  rw [hp]

/-! ## Claims -/

/-- C3: for every wrapped byte source and every sequence of
successful reads through the progress-tracking wrapper totalling `N`
bytes, each read delegates to the wrapped source and returns the same
byte count the source returned (the wrapper's read trace equals the
raw reader's trace, with the same final reader state), and the bound
counter is advanced by exactly those counts, so after the sequence
the accumulated position has grown by exactly `N = ns.sum`; the total
and finished fields are untouched. -/
theorem progress_counter_exact {σ E : Type} (innerRead : σ → σ × Except E Nat)
    (k : Nat) (s : σ) (pb : ProgressBar) (st' : DownloadProgress σ)
    (rs : List (Except E Nat)) (ns : List Nat)
    (hrun : runReads innerRead k ⟨s, pb⟩ = (st', rs))
    (hok : rs = ns.map Except.ok) :
    runInner innerRead k s = (st'.inner, rs)
    ∧ st'.progress_bar.position = pb.position + ns.sum
    ∧ st'.progress_bar.total = pb.total
    ∧ st'.progress_bar.finished = pb.finished := by
  rw [runReads_refines] at hrun
  rw [Prod.mk.injEq] at hrun
  obtain ⟨h1, h2⟩ := hrun
  subst h2
  rw [← h1]
  refine ⟨rfl, ?_, rfl, rfl⟩
  rw [hok, sumOks_map_ok]

/-- Witness for C3: three successful reads of 5, 7 and 9 bytes
through the wrapper leave the counter at exactly 21. -/
theorem progress_counter_exact_witness :
    runInner readChunks 3 [5, 7, 9] = ([], [Except.ok 5, Except.ok 7, Except.ok 9])
    ∧ (21 : Nat) = 0 + [5, 7, 9].sum
    ∧ (100 : Nat) = 100
    ∧ false = false := by
  have h := progress_counter_exact readChunks 3 [5, 7, 9] ⟨100, 0, false⟩
    ⟨[], ⟨100, 21, false⟩⟩ [Except.ok 5, Except.ok 7, Except.ok 9] [5, 7, 9]
    rfl rfl
  exact h

/-- C4: a read through the progress wrapper in which the wrapped
source fails propagates the error unchanged and leaves the progress
bar exactly as it was. -/
theorem read_error_propagates {σ E : Type} (innerRead : σ → σ × Except E Nat)
    (s s' : σ) (pb : ProgressBar) (e : E)
    (h : innerRead s = (s', Except.error e)) :
    DownloadProgress.read innerRead ⟨s, pb⟩ = (⟨s', pb⟩, Except.error e) := by
  simp [DownloadProgress.read, h]

/-- Witness for C4: a failing read returns the same error and leaves
the bar at position 4. -/
theorem read_error_propagates_witness :
    DownloadProgress.read readFailing ⟨[1, 2], ⟨10, 4, false⟩⟩
      = (⟨[1, 2], ⟨10, 4, false⟩⟩, Except.error "boom") :=
  read_error_propagates readFailing [1, 2] [1, 2] ⟨10, 4, false⟩ "boom" rfl

/-- C6: URL assembly is a total function that replaces every
occurrence of the literal token `{version}` by the version's
canonical string form — for any template built by joining pieces free
of the opening brace with the token, every joined occurrence is
substituted — and when the token does not occur in the template at
all, the template is returned unchanged. -/
theorem assemble_url_replaces_token (v : Version) (parts : List (List Char))
    (t : String) (hp : parts ≠ []) (hb : ∀ p ∈ parts, lbrace ∉ p)
    (ht : occursIn versionToken.data t.data = false) :
    (assembleUrl (String.mk (joinWith versionToken.data parts)) v).data
        = joinWith v.toString.data parts
    ∧ assembleUrl t v = t := by
  constructor
  · show replaceAll versionToken.data v.toString.data (joinWith versionToken.data parts)
        = joinWith v.toString.data parts
    exact replaceAll_joinWith versionToken.data v.toString.data lbrace
      (by decide) parts hp hb
  · show String.mk (replaceAll versionToken.data v.toString.data t.data) = t
    rw [replaceAll_of_not_occurs versionToken.data v.toString.data t.data ht]

/-- C1: for every URL of the form `scheme://host/.../name#tag` (an
alphabetic scheme, a host free of `/` and `#`, intermediate path
segments and a final segment `name` free of `/` and `#`, and a
fragment `tag`), `DownloadPath::from` succeeds with
`uncompressed_path = name` (the final path segment) and
`compressed_path = tag` (the fragment). -/
theorem extract_names_from_url (scheme host name tag : List Char)
    (mid : List (List Char))
    (hs : scheme ≠ []) (hsa : scheme.all Char.isAlpha = true)
    (hh1 : '/' ∉ host) (hh2 : '#' ∉ host)
    (hm : ∀ p ∈ mid, '/' ∉ p ∧ '#' ∉ p)
    (hn1 : '/' ∉ name) (hn2 : '#' ∉ name) :
    DownloadPath.fromUrl (String.mk (scheme ++ ':' :: '/' :: '/' ::
        (host ++ '/' :: (joinWith ['/'] (mid ++ [name]) ++ '#' :: tag))))
      = Except.ok ⟨String.mk tag, String.mk name⟩ := by
  have hparts : ∀ p ∈ mid ++ [name], '/' ∉ p ∧ '#' ∉ p := by
    intro p hp
    rcases List.mem_append.mp hp with h | h
    · exact hm p h
    · have hpn : p = name := by simpa using h
      rw [hpn]; exact ⟨hn1, hn2⟩
  have hpath_hash : '#' ∉ joinWith ['/'] (mid ++ [name]) := by
    intro hmem
    rcases mem_of_mem_joinWith ['/'] '#' (mid ++ [name]) hmem with h | ⟨p, hp, hx⟩
    · simp at h
    · exact (hparts p hp).2 hx
  have hsch_hash : '#' ∉ scheme := not_mem_of_all_alpha scheme hsa '#' (by decide)
  have hsch_colon : ':' ∉ scheme := not_mem_of_all_alpha scheme hsa ':' (by decide)
  have hbase_hash :
      '#' ∉ scheme ++ ':' :: '/' :: '/' :: (host ++ '/' ::
        joinWith ['/'] (mid ++ [name])) := by
    intro hmem
    simp only [List.mem_append, List.mem_cons] at hmem
    rcases hmem with h | h | h | h | h | h | h
    · exact hsch_hash h
    · exact absurd h (by decide)
    · exact absurd h (by decide)
    · exact absurd h (by decide)
    · exact hh2 h
    · exact absurd h (by decide)
    · exact hpath_hash h
  have hfull : scheme ++ ':' :: '/' :: '/' :: (host ++ '/' ::
        (joinWith ['/'] (mid ++ [name]) ++ '#' :: tag))
      = (scheme ++ ':' :: '/' :: '/' :: (host ++ '/' ::
          joinWith ['/'] (mid ++ [name]))) ++ '#' :: tag := by
    simp [List.append_assoc]
  have hsplit1 : splitFirst '#' (scheme ++ ':' :: '/' :: '/' :: (host ++ '/' ::
        (joinWith ['/'] (mid ++ [name]) ++ '#' :: tag)))
      = some (scheme ++ ':' :: '/' :: '/' :: (host ++ '/' ::
          joinWith ['/'] (mid ++ [name])), tag) := by
    rw [hfull]
    exact splitFirst_append_cons '#' _ tag hbase_hash
  have hsegs : splitAllChar '/' (joinWith ['/'] (mid ++ [name])) = mid ++ [name] :=
    splitAllChar_joinWith '/' (mid ++ [name]) (by simp)
      (fun p hp => (hparts p hp).1)
  have hparse : parseUrl (scheme ++ ':' :: '/' :: '/' :: (host ++ '/' ::
        (joinWith ['/'] (mid ++ [name]) ++ '#' :: tag)))
      = some ⟨scheme, host, some (mid ++ [name]), some tag⟩ := by
    unfold parseUrl
    rw [hsplit1]
    show parseBase (scheme ++ ':' :: '/' :: '/' :: (host ++ '/' ::
        joinWith ['/'] (mid ++ [name]))) (some tag) = _
    rw [parseBase_eval scheme host (joinWith ['/'] (mid ++ [name])) (some tag)
      hs hsa hsch_colon hh1, hsegs]
  unfold DownloadPath.fromUrl
  rw [show (String.mk (scheme ++ ':' :: '/' :: '/' :: (host ++ '/' ::
      (joinWith ['/'] (mid ++ [name]) ++ '#' :: tag)))).data
    = scheme ++ ':' :: '/' :: '/' :: (host ++ '/' ::
      (joinWith ['/'] (mid ++ [name]) ++ '#' :: tag)) from rfl, hparse]
  simp [List.getLast?_concat]

/-- Witness for C1: a concrete URL `https://host/dir/pkg.tar.gz#pkg`
yields compressed name `pkg` and uncompressed name `pkg.tar.gz`. -/
theorem extract_names_from_url_witness :
    DownloadPath.fromUrl "https://host/dir/pkg.tar.gz#pkg"
      = Except.ok ⟨"pkg", "pkg.tar.gz"⟩ := by
  have h := extract_names_from_url "https".data "host".data "pkg.tar.gz".data
    "pkg".data ["dir".data] (by decide) (by decide) (by decide) (by decide)
    (by decide) (by decide) (by decide)
  have e1 : String.mk ("https".data ++ ':' :: '/' :: '/' :: ("host".data ++ '/' ::
        (joinWith ['/'] (["dir".data] ++ ["pkg.tar.gz".data]) ++ '#' :: "pkg".data)))
      = "https://host/dir/pkg.tar.gz#pkg" := by decide
  have e2 : String.mk "pkg".data = "pkg" := rfl
  have e3 : String.mk "pkg.tar.gz".data = "pkg.tar.gz" := rfl
  rw [e1, e2, e3] at h
  exact h

/-- C2: a URL string that cannot be parsed makes `DownloadPath::from`
fail with the MalformedURL (parse) error; a URL that parses but has
no fragment, or no path segments, also makes it fail (with a panic),
never returning a pair of paths. -/
theorem extract_failure_modes (s : String) :
    (parseUrl s.data = none →
      DownloadPath.fromUrl s = Except.error DlError.malformedUrl)
    ∧ (∀ url : Url, parseUrl s.data = some url →
        url.fragment = none ∨ url.pathSegments = none →
        ∃ e, DownloadPath.fromUrl s = Except.error e) := by
  constructor
  · intro h
    unfold DownloadPath.fromUrl
    rw [h]
  · intro url hp hfail
    rcases hfail with hf | hsg
    · cases hlast : url.pathSegments.bind List.getLast? with
      | none =>
        exact ⟨DlError.panicked "Could not extract uncompressed filename",
          by rw [fromUrl_of_parse s url hp, hlast]⟩
      | some nm =>
        exact ⟨DlError.panicked "Could not extract compressed filename",
          by rw [fromUrl_of_parse s url hp, hlast, hf]⟩
    · have hlast : url.pathSegments.bind List.getLast? = none := by
        rw [hsg]; rfl
      exact ⟨DlError.panicked "Could not extract uncompressed filename",
        by rw [fromUrl_of_parse s url hp, hlast]⟩

/-- Witness for C2: `nourl` does not parse; `https://host/a.tgz` has
no fragment; `https://host` has no path segments; all three fail. -/
theorem extract_failure_modes_witness :
    DownloadPath.fromUrl "nourl" = Except.error DlError.malformedUrl
    ∧ (∃ e, DownloadPath.fromUrl "https://host/a.tgz" = Except.error e)
    ∧ (∃ e, DownloadPath.fromUrl "https://host" = Except.error e) := by
  refine ⟨(extract_failure_modes "nourl").1 (by decide), ?_, ?_⟩
  · exact (extract_failure_modes "https://host/a.tgz").2
      ⟨"https".data, "host".data, some ["a.tgz".data], none⟩
      (by decide) (Or.inl rfl)
  · exact (extract_failure_modes "https://host").2
      ⟨"https".data, "host".data, none, none⟩
      (by decide) (Or.inr rfl)

/-- C10: the compressed destination path is the fragment of the URL
taken verbatim — whenever the parsed URL has a fragment `tag` and a
final path segment, the extractor returns `tag` unchanged as the
compressed path, with no sanitization, basename extraction or
rejection of separators or `..` components — and a successful
download creates the destination file record at exactly that
compressed path. -/
theorem fragment_verbatim :
    (∀ (s : String) (url : Url) (tag name : List Char),
      parseUrl s.data = some url → url.fragment = some tag →
      url.pathSegments.bind List.getLast? = some name →
      DownloadPath.fromUrl s = Except.ok ⟨String.mk tag, String.mk name⟩)
    ∧ (∀ find http fs0 m req fs' info pbf,
        download find http fs0 m req = (fs', Except.ok (info, pbf)) →
        ∃ w, fs' = (info.compressed_path, w) :: fs0) := by
  constructor
  · intro s url tag name hp hf hlast
    rw [fromUrl_of_parse s url hp, hlast, hf]
  · intro find http fs0 m req fs' info pbf hrun
    obtain ⟨u, v, resp, bs, dp, _, _, _, _, _, hinfo, _, hfs⟩ :=
      download_ok_inversion find http fs0 m req fs' info pbf hrun
    exact ⟨(copyProgress (ProgressBar.new bs) 0 resp.body).2.2,
      by rw [hfs, hinfo]⟩

/-- Witness for C10: a fragment holding `../../evil` is used verbatim
as the compressed path. -/
theorem fragment_verbatim_witness :
    DownloadPath.fromUrl "https://host/a.tgz#../../evil"
      = Except.ok ⟨"../../evil", "a.tgz"⟩ := by
  have h := fragment_verbatim.1 "https://host/a.tgz#../../evil"
    ⟨"https".data, "host".data, some ["a.tgz".data], some "../../evil".data⟩
    "../../evil".data "a.tgz".data (by decide) rfl (by decide)
  exact h

/-- C5: version resolution tries the known-versions list through the
black-box matching collaborator first and returns any match paired
with the substituted URL; when the list is absent or yields no match
it returns the pinned version of the download descriptor (with the
substituted URL); when neither yields a version it returns nothing
and the enclosing download fails with the unrecoverable
configuration panic. -/
theorem version_resolution_cases
    (find : List Version → Option VersionReq → Option Version)
    (m : Manifest) (req : Option VersionReq) :
    (∀ vs v, m.versions = some vs → find vs req = some v →
      assemble_download_url find m req
        = some (assembleUrl m.download.url v, v))
    ∧ (m.versions.bind (fun vs => find vs req) = none →
      assemble_download_url find m req
        = m.download.version.map (fun v => (assembleUrl m.download.url v, v)))
    ∧ (∀ http fs0, assemble_download_url find m req = none →
      download find http fs0 m req
        = (fs0, Except.error
            (DlError.panicked "No Download-URL or valid Version given"))) := by
  refine ⟨?_, ?_, ?_⟩
  · intro vs v hvs hfind
    unfold assemble_download_url
    rw [hvs]
    simp [hfind]
  · intro hnone
    unfold assemble_download_url
    rw [hnone]
    cases m.download.version <;> simp
  · intro http fs0 hassem
    unfold download
    rw [hassem]

/-- Witness for C5: a one-entry known-versions list resolves through
the matcher; a pinned-only manifest resolves to the pin; a manifest
with neither makes `download` fail with the configuration panic. -/
theorem version_resolution_cases_witness :
    assemble_download_url findHead manifestKnown none
      = some (assembleUrl manifestKnown.download.url ⟨1, 2, 0⟩, ⟨1, 2, 0⟩)
    ∧ assemble_download_url findHead manifestPinned none
      = manifestPinned.download.version.map
          (fun v => (assembleUrl manifestPinned.download.url v, v))
    ∧ download findHead httpFixed [] manifestBare none
      = ([], Except.error
          (DlError.panicked "No Download-URL or valid Version given")) := by
  refine ⟨?_, ?_, ?_⟩
  · exact (version_resolution_cases findHead manifestKnown none).1
      [⟨1, 2, 0⟩] ⟨1, 2, 0⟩ rfl rfl
  · exact (version_resolution_cases findHead manifestPinned none).2.1 rfl
  · exact (version_resolution_cases findHead manifestBare none).2.2
      httpFixed [] rfl

/-- C7: when the derived compressed destination path already names an
existing file, the exclusive-create open fails: the download returns
the panic naming that path, and the filesystem is returned exactly as
it was, so the existing file is never overwritten, truncated or
appended to. -/
theorem existing_destination_fails
    (find : List Version → Option VersionReq → Option Version)
    (http : String → Except DlError HttpResponse)
    (fs0 : List (String × Nat)) (m : Manifest) (req : Option VersionReq)
    (u : String) (v : Version) (resp : HttpResponse) (bs : Nat)
    (dp : DownloadPath)
    (hassem : assemble_download_url find m req = some (u, v))
    (hhttp : http u = Except.ok resp)
    (hlen : resp.contentLength.bind parseU64 = some bs)
    (hpath : DownloadPath.fromUrl u = Except.ok dp)
    (hex : (fs0.lookup dp.compressed_path).isSome = true) :
    download find http fs0 m req
      = (fs0, Except.error (DlError.panicked
          ("Could not open compressed path " ++ dp.compressed_path))) := by
  simp [download, hassem, hhttp, hlen, hpath, hex]

/-- Witness for C7: re-running the download of `manifestKnown` when
`a` already exists on disk fails, naming `a`, and leaves the
filesystem untouched. -/
theorem existing_destination_fails_witness :
    download findHead httpFixed [("a", 5)] manifestKnown none
      = ([("a", 5)], Except.error (DlError.panicked
          ("Could not open compressed path " ++ "a"))) := by
  exact existing_destination_fails findHead httpFixed [("a", 5)]
    manifestKnown none "https://x/1.2.0/a.tgz#a" ⟨1, 2, 0⟩
    ⟨some "100", [3, 4]⟩ 100 ⟨"a", "a.tgz"⟩ rfl rfl rfl rfl rfl

/-- Counterexample for C8: the failure on a missing content-length
header carries the message `No (numeric) Content-Length given` from
the source, which is not the message `no content length given` the
claim states. -/
theorem content_length_message_counterexample :
    download findHead httpNoLen [] manifestKnown none
      = ([], Except.error (DlError.panicked "No (numeric) Content-Length given"))
    ∧ DlError.panicked "No (numeric) Content-Length given"
        ≠ DlError.panicked "no content length given" := by
  constructor
  · rfl
  · decide

/-- C8 (amended): an absent or non-numeric content-length header
makes the download fail fatally with the panic message
`No (numeric) Content-Length given`; when the header parses, its
value seeds the progress counter's total; and the value is not used
to validate the transferred size: two responses differing only in
their (parseable) content-length values produce the same filesystem
outcome and the same result record, differing at most in the
counter's total. -/
theorem content_length_gate :
    (∀ find http fs0 m req u v resp,
      assemble_download_url find m req = some (u, v) →
      http u = Except.ok resp →
      resp.contentLength.bind parseU64 = none →
      download find http fs0 m req
        = (fs0, Except.error
            (DlError.panicked "No (numeric) Content-Length given")))
    ∧ (∀ find http fs0 m req fs' info pbf,
        download find http fs0 m req = (fs', Except.ok (info, pbf)) →
        ∃ u resp bs, http u = Except.ok resp
          ∧ resp.contentLength.bind parseU64 = some bs
          ∧ pbf.total = bs)
    ∧ (∀ find fs0 m req s₁ s₂ k₁ k₂ chunks,
        parseU64 s₁ = some k₁ → parseU64 s₂ = some k₂ →
        (download find (fun _ => Except.ok ⟨some s₁, chunks⟩) fs0 m req).1
            = (download find (fun _ => Except.ok ⟨some s₂, chunks⟩) fs0 m req).1
          ∧ ∀ info pb₁,
            (download find (fun _ => Except.ok ⟨some s₁, chunks⟩) fs0 m req).2
                = Except.ok (info, pb₁) →
            ∃ pb₂,
              (download find (fun _ => Except.ok ⟨some s₂, chunks⟩) fs0 m req).2
                  = Except.ok (info, pb₂)
              ∧ pb₂.position = pb₁.position
              ∧ pb₂.finished = pb₁.finished) := by
  refine ⟨?_, ?_, ?_⟩
  · intro find http fs0 m req u v resp hassem hhttp hlen
    simp [download, hassem, hhttp, hlen]
  · intro find http fs0 m req fs' info pbf hrun
    obtain ⟨u, v, resp, bs, dp, _, hhttp, hlen, _, _, _, hpb, _⟩ :=
      download_ok_inversion find http fs0 m req fs' info pbf hrun
    refine ⟨u, resp, bs, hhttp, hlen, ?_⟩
    rw [hpb]
    show (copyProgress (ProgressBar.new bs) 0 resp.body).1.total = bs
    rw [copyProgress_total resp.body (ProgressBar.new bs) 0]
    rfl
  · intro find fs0 m req s₁ s₂ k₁ k₂ chunks h₁ h₂
    cases hassem : assemble_download_url find m req with
    | none =>
      constructor
      · simp [download, hassem]
      · intro info pb₁ hok
        simp [download, hassem] at hok
    | some uv =>
      obtain ⟨u, v⟩ := uv
      cases hpath : DownloadPath.fromUrl u with
      | error e =>
        constructor
        · simp [download, hassem, hpath, h₁, h₂]
        · intro info pb₁ hok
          simp [download, hassem, hpath, h₁, h₂] at hok
      | ok dp =>
        cases hex : (fs0.lookup dp.compressed_path).isSome with
        | true =>
          constructor
          · simp [download, hassem, hpath, h₁, h₂, hex]
          · intro info pb₁ hok
            simp [download, hassem, hpath, h₁, h₂, hex] at hok
        | false =>
          obtain ⟨kp, kf, k2⟩ := copyProgress_ignores_total chunks k₁ k₂ 0 false 0
          constructor
          · simp [download, hassem, hpath, h₁, h₂, hex, ProgressBar.new, k2]
          · intro info pb₁ hok
            simp only [download, hassem, hpath, h₁, h₂, hex, ProgressBar.new,
              Option.some_bind, Bool.false_eq_true, if_false] at hok ⊢
            rw [Except.ok.injEq, Prod.mk.injEq] at hok
            obtain ⟨hinfo, hpb⟩ := hok
            refine ⟨(copyProgress ⟨k₂, 0, false⟩ 0 chunks).1.finish, ?_, ?_, ?_⟩
            · rw [Except.ok.injEq, Prod.mk.injEq]
              refine ⟨?_, rfl⟩
              rw [← hinfo]
              simp [k2]
            · rw [← hpb]
              simp [ProgressBar.finish, kp]
            · rw [← hpb]
              simp [ProgressBar.finish]

/-- Witness for C8 (amended): a response with no content-length
header fails with the source's message; a successful download with
declared length 100 has its counter total seeded to 100; and the
contrast of declared lengths 100 and 55 leaves the outcome
unchanged. -/
theorem content_length_gate_witness :
    download findHead httpNoLen [] manifestKnown none
      = ([], Except.error
          (DlError.panicked "No (numeric) Content-Length given"))
    ∧ (∃ u resp bs,
        httpFixed u = Except.ok resp
        ∧ resp.contentLength.bind parseU64 = some bs
        ∧ (100 : Nat) = bs)
    ∧ (download findHead (fun _ => Except.ok ⟨some "100", [3, 4]⟩) [] manifestKnown none).1
        = (download findHead (fun _ => Except.ok ⟨some "55", [3, 4]⟩) [] manifestKnown none).1 := by
  refine ⟨?_, ?_, ?_⟩
  · exact content_length_gate.1 findHead httpNoLen [] manifestKnown none
      "https://x/1.2.0/a.tgz#a" ⟨1, 2, 0⟩ ⟨none, [3, 4]⟩ rfl rfl rfl
  · exact content_length_gate.2.1 findHead httpFixed [] manifestKnown none
      [("a", 7)] ⟨⟨"pkg"⟩, ⟨1, 2, 0⟩, 7, "a", "a.tgz"⟩ ⟨100, 7, true⟩ rfl
  · exact (content_length_gate.2.2 findHead [] manifestKnown none
      "100" "55" 100 55 [3, 4] (by decide) (by decide)).1

/-- C9: for every successful download the returned size equals the
number of bytes actually written to the destination file (the new
filesystem entry at the compressed path holds exactly `info.size`
bytes), and it is neither required to equal nor checked against the
declared content length: a concrete download declaring 100 bytes
succeeds having transferred 7. -/
theorem result_size_equals_written :
    (∀ find http fs0 m req fs' info pbf,
      download find http fs0 m req = (fs', Except.ok (info, pbf)) →
      fs'.lookup info.compressed_path = some info.size
      ∧ fs' = (info.compressed_path, info.size) :: fs0)
    ∧ (∃ fs' info pbf,
        download findHead httpFixed [] manifestKnown none
          = (fs', Except.ok (info, pbf))
        ∧ parseU64 "100" = some 100 ∧ info.size = 7 ∧ (7 : Nat) ≠ 100) := by
  constructor
  · intro find http fs0 m req fs' info pbf hrun
    obtain ⟨u, v, resp, bs, dp, _, _, _, _, _, hinfo, _, hfs⟩ :=
      download_ok_inversion find http fs0 m req fs' info pbf hrun
    have hw := copyProgress_written resp.body (ProgressBar.new bs) 0
    have hsize : info.size
        = (copyProgress (ProgressBar.new bs) 0 resp.body).2.1 := by
      rw [hinfo]
    have hcp : info.compressed_path = dp.compressed_path := by
      rw [hinfo]
    constructor
    · rw [hfs, hcp, hsize]
      simp [List.lookup, hw]
    · rw [hfs, hcp, hsize, hw]
      simp
  · exact ⟨[("a", 7)], ⟨⟨"pkg"⟩, ⟨1, 2, 0⟩, 7, "a", "a.tgz"⟩, ⟨100, 7, true⟩,
      rfl, rfl, rfl, by decide⟩

/-- Witness for C9: the concrete successful download writes 7 bytes
to `a` and reports size 7. -/
theorem result_size_equals_written_witness :
    ([("a", 7)] : List (String × Nat)).lookup "a" = some 7
    ∧ ([("a", 7)] : List (String × Nat)) = ("a", 7) :: [] := by
  have h := result_size_equals_written.1 findHead httpFixed [] manifestKnown
    none [("a", 7)] ⟨⟨"pkg"⟩, ⟨1, 2, 0⟩, 7, "a", "a.tgz"⟩ ⟨100, 7, true⟩ rfl
  exact h

/-- Witness for C6: the specification's own example, with the token
present and with it absent. -/
theorem assemble_url_replaces_token_witness :
    (assembleUrl "https://x/{version}/a.tgz" ⟨1, 2, 3⟩).data
        = "https://x/1.2.3/a.tgz".data
    ∧ assembleUrl "https://x/a.tgz" ⟨1, 2, 3⟩ = "https://x/a.tgz" := by
  have h := assemble_url_replaces_token ⟨1, 2, 3⟩
    ["https://x/".data, "/a.tgz".data] "https://x/a.tgz"
    (by decide) (by decide) (by decide)
  have e1 : String.mk (joinWith versionToken.data ["https://x/".data, "/a.tgz".data])
      = "https://x/{version}/a.tgz" := by decide
  have e2 : joinWith (Version.toString ⟨1, 2, 3⟩).data ["https://x/".data, "/a.tgz".data]
      = "https://x/1.2.3/a.tgz".data := by decide
  rw [e1, e2] at h
  exact h

end JustDownload
